import Mathlib

/-!
Verification development for `scripts/spec_tools/algo.py` (`RecursiveMemoize`).

The Python class is a lazily-evaluated memoizing function: `self.d` is a dict
mapping keys to either a computed value or the sentinel `None` meaning "this
key is currently being computed".  `__getitem__` looks a key up, computing it
on demand via the subclass-supplied `compute`, which may itself call
`__getitem__` recursively.  `get_dict` returns the underlying dict object.

Embedding choices:
* A dict entry is `Option V`: `none` is the Python `None` in-progress
  sentinel, `some v` a resolved value.  The dict itself is an association
  list `List (K × Option V)` with Python-dict update semantics (update in
  place, insert at the end), so absence from the list is "never requested".
* The subclass-supplied `compute` is a deep-embedded program (`Prog`) that
  can return a value, raise, or call `__getitem__` and continue with the
  result; this is exactly the interface the Python code grants `compute`.
* Execution is fuel-indexed; running out of fuel is a distinguished error.
  Python exceptions propagate but leave `self.d` mutated, so every run
  returns the final state alongside the `Except` result.
* The state carries a ghost `log : List K` recording, in order, each
  invocation of `compute` (one entry appended exactly where the Python code
  executes `ret = self.compute(key)`), so "computed at most once" claims are
  expressible.
-/

/-- A compute rule, as the Python contract allows it to behave: it may
return a result (possibly `none`, the misused sentinel), raise an error, or
call `__getitem__` on some key and continue with the value received. -/
inductive Prog (K V E : Type) where
  | ret : Option V → Prog K V E
  | throw : E → Prog K V E
  | lookupK : K → (Option V → Prog K V E) → Prog K V E

/-- Errors observable from `__getitem__`: the `RuntimeError` raised on a
detected cycle (carrying the offending key, as the Python message does), an
error raised by the compute rule, or fuel exhaustion (an artifact of the
fuel-indexed embedding; Python would instead recurse unboundedly). -/
inductive Err (K E : Type) where
  | cycleDetected : K → Err K E
  | computeError : E → Err K E
  | outOfFuel : Err K E
deriving DecidableEq

/-- Python-dict lookup `d[key]` / `key in d` on the association list:
`none` = key absent, `some none` = in-progress sentinel stored,
`some (some v)` = resolved value stored. -/
def findEntry {K V : Type} [DecidableEq K] : List (K × Option V) → K → Option (Option V)
  | [], _ => none
  | (k', v) :: rest, k => if k' = k then some v else findEntry rest k

/-- Python-dict assignment `d[key] = v`: update in place if present,
append otherwise (insertion order preserved). -/
def setEntry {K V : Type} [DecidableEq K] : List (K × Option V) → K → Option V → List (K × Option V)
  | [], k, v => [(k, v)]
  | (k', v') :: rest, k, v => if k' = k then (k, v) :: rest else (k', v') :: setEntry rest k v

/-- The mutable state of a `RecursiveMemoize` object: the dict `d`, plus the
ghost log of `compute` invocations. -/
structure MState (K V : Type) where
  d : List (K × Option V)
  log : List K
deriving DecidableEq

/-- Number of times key `k` occurs in an invocation log. -/
def countKey {K : Type} [DecidableEq K] (k : K) : List K → Nat
  | [] => 0
  | k' :: rest => (if k' = k then 1 else 0) + countKey k rest

/-- Fuel-indexed interpreter.  `Sum.inl k` runs `__getitem__(k)`;
`Sum.inr p` runs a compute-rule program `p`.  Transcribes
`RecursiveMemoize.__getitem__`:

    if key in self.d:
        ret = self.d[key]
        if ret is None and not self.permit_cycles:
            raise RuntimeError("Cycle detected ... f({}) ...".format(key))
        return ret
    self.d[key] = None
    ret = self.compute(key)
    self.d[key] = ret
    return ret

The state is returned also on error, as Python's `self.d` survives a raised
exception. -/
def exec {K V E : Type} [DecidableEq K] (c : K → Prog K V E) (pc : Bool) :
    Nat → Sum K (Prog K V E) → MState K V → (Except (Err K E) (Option V)) × MState K V
  | 0, _, s => (Except.error Err.outOfFuel, s)
  | Nat.succ n, Sum.inl k, s =>
    match findEntry s.d k with
    | some (some v) => (Except.ok (some v), s)
    | some none =>
      if pc then (Except.ok none, s) else (Except.error (Err.cycleDetected k), s)
    | none =>
      match exec c pc n (Sum.inr (c k)) ⟨setEntry s.d k none, s.log ++ [k]⟩ with
      | (Except.ok ret, s2) => (Except.ok ret, ⟨setEntry s2.d k ret, s2.log⟩)
      | (Except.error e, s2) => (Except.error e, s2)
  | Nat.succ _, Sum.inr (Prog.ret v), s => (Except.ok v, s)
  | Nat.succ _, Sum.inr (Prog.throw e), s => (Except.error (Err.computeError e), s)
  | Nat.succ n, Sum.inr (Prog.lookupK k cont), s =>
    match exec c pc n (Sum.inl k) s with
    | (Except.ok r, s') => exec c pc n (Sum.inr (cont r)) s'
    | (Except.error e, s') => (Except.error e, s')

/-- `__getitem__` (the spec's `lookup`), as a state transformer. -/
def getItem {K V E : Type} [DecidableEq K] (c : K → Prog K V E) (pc : Bool)
    (fuel : Nat) (k : K) (s : MState K V) : (Except (Err K E) (Option V)) × MState K V :=
  exec c pc fuel (Sum.inl k) s

/-- Run `__getitem__` on each key of a list in order, collecting the returned
values; stops at the first raised error, as a Python `for` loop would. -/
def lookupSeq {K V E : Type} [DecidableEq K] (c : K → Prog K V E) (pc : Bool)
    (fuel : Nat) : List K → MState K V → (Except (Err K E) (List (Option V))) × MState K V
  | [], s => (Except.ok [], s)
  | k :: ks, s =>
    match getItem c pc fuel k s with
    | (Except.ok r, s') =>
      match lookupSeq c pc fuel ks s' with
      | (Except.ok rs, s'') => (Except.ok (r :: rs), s'')
      | (Except.error e, s'') => (Except.error e, s'')
    | (Except.error e, s') => (Except.error e, s')

/-- `__init__`: start from the empty dict and perform `_ = self[key]` for
each key of the optional iterable, in order (`key_iterable = []` models
passing no iterable). -/
def initMemoize {K V E : Type} [DecidableEq K] (c : K → Prog K V E) (pc : Bool)
    (fuel : Nat) (key_iterable : List K) : (Except (Err K E) (List (Option V))) × MState K V :=
  lookupSeq c pc fuel key_iterable ⟨[], []⟩

/-- The factorial compute rule of the spec's example scenario:
`compute(n) = 1 if n == 0 else n * self[n - 1]`. -/
def computeFact : Nat → Prog Nat Nat Unit := fun n =>
  if n = 0 then Prog.ret (some 1)
  else Prog.lookupK (n - 1) (fun r =>
    match r with
    | some v => Prog.ret (some (n * v))
    | none => Prog.throw ())

/-- Concrete compute rule for test scenarios: always return the value `v`. -/
def cConst (v : Nat) : Nat → Prog Nat Nat Unit := fun _ => Prog.ret (some v)

/-- Concrete compute rule for test scenarios: always raise. -/
def cThrowU : Nat → Prog Nat Nat Unit := fun _ => Prog.throw ()

/-- Concrete compute rule for test scenarios: return the `None` sentinel as
a genuine result, violating the class docstring's "Your function should
never return None". -/
def cSentinel : Nat → Prog Nat Nat Unit := fun _ => Prog.ret none

/-- The class docstring's contract on compute rules — "Your function should
never return None, since it is used as a sentinel here": every `ret` leaf
of the program carries a genuine value.  (It may still raise, and it may
still receive `none` from a reentrant lookup under cycle tolerance.) -/
inductive GenuineProg {K V E : Type} : Prog K V E → Prop where
  | ret : ∀ v, GenuineProg (Prog.ret (some v))
  | throw : ∀ e, GenuineProg (Prog.throw e)
  | lookupK : ∀ k cont, (∀ r, GenuineProg (cont r)) → GenuineProg (Prog.lookupK k cont)

/-!
Heap-level view.  In Python, `self.d` is a reference to a heap-allocated
dict: `get_dict` returns that reference itself (`return self.d`), not a
copy, and `__getitem__` mutates the dict in place through the same
reference.  To state claims about object identity and aliasing we wrap the
interpreter in a tiny heap: addresses are `Nat`, the heap maps each address
to dict contents, and a `RecursiveMemoize` object holds the address of its
dict together with its `permit_cycles` flag.
-/

/-- A heap of dict objects, an allocation counter, and the ghost log. -/
structure HeapState (K V : Type) where
  heap : Nat → List (K × Option V)
  next : Nat
  log : List K

/-- A `RecursiveMemoize` object: the address of its dict (`self.d` is a
reference) and the `permit_cycles` flag fixed at construction. -/
structure MemoObj where
  dRef : Nat
  permit_cycles : Bool

/-- Allocate the fresh empty dict of `__init__` (`self.d = {}`) and record
the flag; eager population is layered on top with `getItemH`. -/
def newMemo {K V : Type} (pc : Bool) (hs : HeapState K V) : MemoObj × HeapState K V :=
  (⟨hs.next, pc⟩,
   ⟨fun a => if a = hs.next then [] else hs.heap a, hs.next + 1, hs.log⟩)

/-- `get_dict`: `return self.d` — returns the reference held in the object,
touching nothing. -/
def get_dict {K V : Type} (m : MemoObj) (hs : HeapState K V) : Nat × HeapState K V :=
  (m.dRef, hs)

/-- `__getitem__` at the heap level: read the dict at `self.d`'s address,
run the interpreter on it, and write the resulting contents back in place
at the same address. -/
def getItemH {K V E : Type} [DecidableEq K] (c : K → Prog K V E) (fuel : Nat)
    (m : MemoObj) (k : K) (hs : HeapState K V) :
    (Except (Err K E) (Option V)) × HeapState K V :=
  match getItem c m.permit_cycles fuel k ⟨hs.heap m.dRef, hs.log⟩ with
  | (r, s') => (r, ⟨fun a => if a = m.dRef then s'.d else hs.heap a, hs.next, s'.log⟩)

/-- Relation between a store state and any later state reachable from it by
running the interpreter: resolved entries keep their exact value,
in-progress entries stay in progress, keys already present in the dict are
never handed to `compute` again, each key gains at most one `compute`
invocation, and a key that was handed to `compute` has an entry
afterwards. -/
def StepInv {K V : Type} [DecidableEq K] (s s' : MState K V) : Prop :=
  (∀ j v, findEntry s.d j = some (some v) → findEntry s'.d j = some (some v)) ∧
  (∀ j, findEntry s.d j = some none → findEntry s'.d j = some none) ∧
  (∀ j x, findEntry s.d j = some x → countKey j s'.log = countKey j s.log) ∧
  (∀ j, countKey j s'.log ≤ countKey j s.log + 1) ∧
  (∀ j, countKey j s.log < countKey j s'.log → ∃ x, findEntry s'.d j = some x)

/-- Fast path: a resolved key is returned from the cache, with no state
change and no `compute` call. -/
theorem getItem_fast_resolved {K V E : Type} [DecidableEq K]
    (c : K → Prog K V E) (pc : Bool) (n : Nat) (k : K) (s : MState K V) (v : V)
    (h : findEntry s.d k = some (some v)) :
    getItem c pc (n + 1) k s = (Except.ok (some v), s) := by
  simp [getItem, exec, h]

/-- Reentrant lookup of an in-progress key with cycles forbidden raises
`CycleDetected` for that key, with no state change. -/
theorem getItem_fast_inprogress_noPc {K V E : Type} [DecidableEq K]
    (c : K → Prog K V E) (n : Nat) (k : K) (s : MState K V)
    (h : findEntry s.d k = some none) :
    getItem c false (n + 1) k s = (Except.error (Err.cycleDetected k), s) := by
  simp [getItem, exec, h]

/-- Reentrant lookup of an in-progress key with cycles permitted returns the
`none` sentinel, with no state change. -/
theorem getItem_fast_inprogress_pc {K V E : Type} [DecidableEq K]
    (c : K → Prog K V E) (n : Nat) (k : K) (s : MState K V)
    (h : findEntry s.d k = some none) :
    getItem c true (n + 1) k s = (Except.ok none, s) := by
  simp [getItem, exec, h]

theorem findEntry_setEntry_self {K V : Type} [DecidableEq K]
    (d : List (K × Option V)) (k : K) (v : Option V) :
    findEntry (setEntry d k v) k = some v := by
  induction d with
  | nil => simp [setEntry, findEntry]
  | cons p rest ih =>
    by_cases h : p.1 = k
    · simp [setEntry, findEntry, h]
    · simp [setEntry, findEntry, h, ih]

theorem findEntry_setEntry_ne {K V : Type} [DecidableEq K]
    (d : List (K × Option V)) (k j : K) (v : Option V) (hne : j ≠ k) :
    findEntry (setEntry d k v) j = findEntry d j := by
  have hkj : ¬ k = j := fun h => hne h.symm
  induction d with
  | nil => simp [setEntry, findEntry, hkj]
  | cons p rest ih =>
    rcases p with ⟨k', v'⟩
    by_cases h : k' = k
    · subst h
      simp [setEntry, findEntry, hkj]
    · by_cases h2 : k' = j
      · simp [setEntry, findEntry, h, h2, hne]
      · simp [setEntry, findEntry, h, h2, ih]

theorem countKey_append {K : Type} [DecidableEq K] (k : K) (l1 l2 : List K) :
    countKey k (l1 ++ l2) = countKey k l1 + countKey k l2 := by
  induction l1 with
  | nil => simp [countKey]
  | cons a rest ih => simp [countKey, ih]; omega

theorem StepInv.rfl {K V : Type} [DecidableEq K] (s : MState K V) : StepInv s s :=
  ⟨fun _ _ h => h, fun _ h => h, fun _ _ _ => Eq.refl _,
   fun _ => Nat.le_succ _, fun _ h => absurd h (Nat.lt_irrefl _)⟩

theorem StepInv.trans {K V : Type} [DecidableEq K] {s1 s2 s3 : MState K V}
    (a : StepInv s1 s2) (b : StepInv s2 s3) : StepInv s1 s3 := by
  obtain ⟨a1, a2, a3, a4, a5⟩ := a
  obtain ⟨b1, b2, b3, b4, b5⟩ := b
  refine ⟨fun j v h => b1 j v (a1 j v h), fun j h => b2 j (a2 j h), ?_, ?_, ?_⟩
  · intro j x h
    have hpres : findEntry s2.d j = some x ∨ ∃ y, findEntry s2.d j = some y := by
      cases x with
      | none => exact Or.inl (a2 j h)
      | some v => exact Or.inl (a1 j v h)
    rcases hpres with h2 | ⟨y, h2⟩
    · rw [b3 j x h2, a3 j x h]
    · rw [b3 j y h2, a3 j x h]
  · intro j
    by_cases hlt : countKey j s1.log < countKey j s2.log
    · obtain ⟨x, hx⟩ := a5 j hlt
      have heq := b3 j x hx
      have ha := a4 j
      omega
    · have ha := a4 j
      have hb := b4 j
      omega
  · intro j hlt
    by_cases h2 : countKey j s2.log < countKey j s3.log
    · exact b5 j h2
    · have hlt1 : countKey j s1.log < countKey j s2.log := by
        have := b4 j; omega
      obtain ⟨x, hx⟩ := a5 j hlt1
      cases x with
      | none => exact ⟨none, b2 j hx⟩
      | some v => exact ⟨some v, b1 j v hx⟩

/-- `StepInv` from a state to the state after marking an absent key in
progress and logging its `compute` invocation. -/
theorem StepInv.mark {K V : Type} [DecidableEq K] (s : MState K V) (k : K)
    (hk : findEntry s.d k = none) :
    StepInv s ⟨setEntry s.d k none, s.log ++ [k]⟩ := by
  have hne : ∀ j x, findEntry s.d j = some x → ¬ k = j := by
    intro j x h hj; subst hj; rw [hk] at h; exact Option.noConfusion h
  refine ⟨?_, ?_, ?_, ?_, ?_⟩
  · intro j v h
    have hjk : j ≠ k := fun hh => hne j _ h hh.symm
    simpa [findEntry_setEntry_ne s.d k j none hjk] using h
  · intro j h
    have hjk : j ≠ k := fun hh => hne j _ h hh.symm
    simpa [findEntry_setEntry_ne s.d k j none hjk] using h
  · intro j x h
    simp [countKey_append, countKey, hne j x h]
  · intro j
    by_cases h : k = j <;> simp [countKey_append, countKey, h]
  · intro j h
    have hj : k = j := by
      by_contra hjk
      simp [countKey_append, countKey, hjk] at h
    subst hj
    exact ⟨none, findEntry_setEntry_self s.d k none⟩

/-- The fundamental invariant: a single interpreter run (a `__getitem__`
call or a compute-rule program) relates its initial and final states by
`StepInv`. -/
theorem exec_StepInv {K V E : Type} [DecidableEq K] (c : K → Prog K V E) (pc : Bool) :
    ∀ (n : Nat) (a : Sum K (Prog K V E)) (s : MState K V),
    StepInv s (exec c pc n a s).2 := by
  intro n
  induction n with
  | zero => intro a s; exact StepInv.rfl s
  | succ n ih =>
    intro a s
    match a with
    | Sum.inl k =>
      cases hfind : findEntry s.d k with
      | some x =>
        cases x with
        | some v => simp [exec, hfind]; exact StepInv.rfl s
        | none =>
          cases pc with
          | true => simp [exec, hfind]; exact StepInv.rfl s
          | false => simp [exec, hfind]; exact StepInv.rfl s
      | none =>
        have h1 : StepInv s ⟨setEntry s.d k none, s.log ++ [k]⟩ := StepInv.mark s k hfind
        have h2 := ih (Sum.inr (c k)) ⟨setEntry s.d k none, s.log ++ [k]⟩
        rcases hrec : exec c pc n (Sum.inr (c k)) ⟨setEntry s.d k none, s.log ++ [k]⟩
          with ⟨r, s2⟩
        rw [hrec] at h2
        have h12 : StepInv s s2 := StepInv.trans h1 h2
        cases r with
        | error e =>
          simpa [exec, hfind, hrec] using h12
        | ok ret =>
          simp only [exec, hfind, hrec]
          obtain ⟨c1, c2, c3, c4, c5⟩ := h12
          have hnk : ∀ j x, findEntry s.d j = some x → j ≠ k := by
            intro j x h hj; rw [hj, hfind] at h; exact Option.noConfusion h
          refine ⟨?_, ?_, ?_, c4, ?_⟩
          · intro j v h
            rw [findEntry_setEntry_ne s2.d k j ret (hnk j _ h)]
            exact c1 j v h
          · intro j h
            rw [findEntry_setEntry_ne s2.d k j ret (hnk j _ h)]
            exact c2 j h
          · intro j x h
            exact c3 j x h
          · intro j h
            by_cases hj : j = k
            · subst hj
              exact ⟨ret, findEntry_setEntry_self s2.d j ret⟩
            · obtain ⟨x, hx⟩ := c5 j h
              rw [findEntry_setEntry_ne s2.d k j ret hj]
              exact ⟨x, hx⟩
    | Sum.inr p =>
      match p with
      | Prog.ret v => simp [exec]; exact StepInv.rfl s
      | Prog.throw e => simp [exec]; exact StepInv.rfl s
      | Prog.lookupK k cont =>
        have h1 := ih (Sum.inl k) s
        rcases hrec : exec c pc n (Sum.inl k) s with ⟨r, s'⟩
        rw [hrec] at h1
        cases r with
        | error e => simpa [exec, hrec] using h1
        | ok r =>
          have h2 := ih (Sum.inr (cont r)) s'
          simpa [exec, hrec] using StepInv.trans h1 h2

/-- Any entry present in the dict survives an interpreter run unchanged in
form: resolved stays resolved with the same value, in-progress stays
in-progress. -/
theorem StepInv.preserve {K V : Type} [DecidableEq K] {s s' : MState K V}
    (h : StepInv s s') {j : K} {x : Option V} (hj : findEntry s.d j = some x) :
    findEntry s'.d j = some x := by
  cases x with
  | none => exact h.2.1 j hj
  | some v => exact h.1 j v hj

/-- After a successful `__getitem__` call, the dict maps the requested key
to exactly the returned value. -/
theorem getItem_resolves {K V E : Type} [DecidableEq K]
    (c : K → Prog K V E) (pc : Bool) (n : Nat) (k : K) (s : MState K V)
    (r : Option V) (s₁ : MState K V)
    (h : getItem c pc n k s = (Except.ok r, s₁)) :
    findEntry s₁.d k = some r := by
  cases n with
  | zero => simp [getItem, exec] at h
  | succ n =>
    cases hfind : findEntry s.d k with
    | some x =>
      cases x with
      | some v =>
        simp [getItem, exec, hfind] at h
        obtain ⟨hv, hs⟩ := h
        rw [← hs, hfind, hv]
      | none =>
        cases pc with
        | false => simp [getItem, exec, hfind] at h
        | true =>
          simp [getItem, exec, hfind] at h
          obtain ⟨hv, hs⟩ := h
          rw [← hs, hfind, ← hv]
    | none =>
      rcases hrec : exec c pc n (Sum.inr (c k)) ⟨setEntry s.d k none, s.log ++ [k]⟩
        with ⟨rr, s2⟩
      cases rr with
      | error e => simp [getItem, exec, hfind, hrec] at h
      | ok ret =>
        simp [getItem, exec, hfind, hrec] at h
        obtain ⟨hv, hs⟩ := h
        rw [← hs, hv]
        exact findEntry_setEntry_self s2.d k r

/-- The fundamental invariant extends to any sequence of `__getitem__`
calls. -/
theorem lookupSeq_StepInv {K V E : Type} [DecidableEq K] (c : K → Prog K V E)
    (pc : Bool) (fuel : Nat) :
    ∀ (ks : List K) (s : MState K V), StepInv s (lookupSeq c pc fuel ks s).2 := by
  intro ks
  induction ks with
  | nil => intro s; exact StepInv.rfl s
  | cons k ks ih =>
    intro s
    have hstep := exec_StepInv c pc fuel (Sum.inl k) s
    rcases h1 : getItem c pc fuel k s with ⟨r, s'⟩
    rw [show exec c pc fuel (Sum.inl k) s = getItem c pc fuel k s from Eq.refl _, h1] at hstep
    cases r with
    | error e => simpa [lookupSeq, h1] using hstep
    | ok r =>
      have hrest := ih s'
      rcases h2 : lookupSeq c pc fuel ks s' with ⟨rs, s''⟩
      rw [h2] at hrest
      cases rs with
      | error e => simpa [lookupSeq, h1, h2] using StepInv.trans hstep hrest
      | ok rs => simpa [lookupSeq, h1, h2] using StepInv.trans hstep hrest

theorem countKey_pos_of_mem {K : Type} [DecidableEq K] {j : K} {l : List K}
    (h : j ∈ l) : 0 < countKey j l := by
  induction l with
  | nil => cases h
  | cons a rest ih =>
    rcases List.mem_cons.mp h with h | h
    · simp [countKey, h.symm]
    · have := ih h
      simp [countKey]
      omega

/-- A successful run of `__getitem__` over a list of keys resolves every
listed key to exactly the value returned for it. -/
theorem lookupSeq_resolves {K V E : Type} [DecidableEq K] (c : K → Prog K V E)
    (pc : Bool) (fuel : Nat) :
    ∀ (ks : List K) (s : MState K V) (rs : List (Option V)) (s' : MState K V),
    lookupSeq c pc fuel ks s = (Except.ok rs, s') →
    rs.length = ks.length ∧
    ∀ (i : Nat) (hi : i < ks.length) (hi' : i < rs.length),
      findEntry s'.d (ks.get ⟨i, hi⟩) = some (rs.get ⟨i, hi'⟩) := by
  intro ks
  induction ks with
  | nil =>
    intro s rs s' h
    simp [lookupSeq] at h
    obtain ⟨h1, _⟩ := h
    subst h1
    exact ⟨Eq.refl _, fun i hi => absurd hi (Nat.not_lt_zero i)⟩
  | cons k ks ih =>
    intro s rs s' h
    rcases h1 : getItem c pc fuel k s with ⟨r, s₁⟩
    cases r with
    | error e => simp [lookupSeq, h1] at h
    | ok r =>
      rcases h2 : lookupSeq c pc fuel ks s₁ with ⟨rs', s₂⟩
      cases rs' with
      | error e => simp [lookupSeq, h1, h2] at h
      | ok rs' =>
        simp [lookupSeq, h1, h2] at h
        obtain ⟨hrs, hs⟩ := h
        subst hs
        subst hrs
        obtain ⟨hlen, hres⟩ := ih s₁ rs' _ h2
        have hk : findEntry s₁.d k = some r := getItem_resolves c pc fuel k s r s₁ h1
        have hinv := lookupSeq_StepInv c pc fuel ks s₁
        rw [h2] at hinv
        refine ⟨by simp [hlen], ?_⟩
        intro i hi hi'
        cases i with
        | zero => simpa using StepInv.preserve hinv hk
        | succ i =>
          have hi2 : i < ks.length := by simpa using hi
          have hi2' : i < rs'.length := by omega
          simpa using hres i hi2 hi2'

/-- C1.  Memoization: once `__getitem__(k)` has returned a genuine `Value`
`v`, every later `__getitem__(k)` — immediately or after any further
sequence of lookups — returns the same `v` without changing the state, the
resolving call itself invoked `compute` for `k` at most once, and no later
lookup ever invokes `compute` for `k` again. -/
theorem memoization_at_most_once {K V E : Type} [DecidableEq K]
    (c : K → Prog K V E) (pc : Bool) (n m : Nat) (k : K) (s s₁ : MState K V) (v : V)
    (h : getItem c pc n k s = (Except.ok (some v), s₁)) :
    getItem c pc (m + 1) k s₁ = (Except.ok (some v), s₁) ∧
    countKey k s₁.log ≤ countKey k s.log + 1 ∧
    (∀ (fuel : Nat) (ks : List K),
      getItem c pc (m + 1) k ((lookupSeq c pc fuel ks s₁).2) =
        (Except.ok (some v), (lookupSeq c pc fuel ks s₁).2) ∧
      countKey k ((lookupSeq c pc fuel ks s₁).2).log = countKey k s₁.log) := by
  have hres : findEntry s₁.d k = some (some v) := getItem_resolves c pc n k s (some v) s₁ h
  have hinv := exec_StepInv c pc n (Sum.inl k) s
  rw [show exec c pc n (Sum.inl k) s = (Except.ok (some v), s₁) from h] at hinv
  refine ⟨getItem_fast_resolved c pc m k s₁ v hres, hinv.2.2.2.1 k, ?_⟩
  intro fuel ks
  have hseq := lookupSeq_StepInv c pc fuel ks s₁
  have hres2 := StepInv.preserve hseq hres
  exact ⟨getItem_fast_resolved c pc m k _ v hres2, hseq.2.2.1 k (some v) hres⟩

theorem memoization_at_most_once_witness :
    getItem (cConst 7) false 2 0 ⟨[], []⟩ =
      (Except.ok (some 7), ⟨[(0, some 7)], [0]⟩) ∧
    (getItem (cConst 7) false 1 0 ⟨[(0, some 7)], [0]⟩ =
        (Except.ok (some 7), ⟨[(0, some 7)], [0]⟩) ∧
      countKey 0 [0] ≤ countKey 0 ([] : List Nat) + 1 ∧
      (∀ (fuel : Nat) (ks : List Nat),
        getItem (cConst 7) false 1 0
            ((lookupSeq (cConst 7) false fuel ks ⟨[(0, some 7)], [0]⟩).2) =
          (Except.ok (some 7),
           (lookupSeq (cConst 7) false fuel ks ⟨[(0, some 7)], [0]⟩).2) ∧
        countKey 0 ((lookupSeq (cConst 7) false fuel ks
            ⟨[(0, some 7)], [0]⟩).2).log = countKey 0 [0])) :=
  ⟨rfl, memoization_at_most_once (cConst 7) false 2 0 0 ⟨[], []⟩
    ⟨[(0, some 7)], [0]⟩ 7 rfl⟩

/-- C2.  Cycle detection: a reentrant `__getitem__(k)` while `k` is in
progress, with `permit_cycles = false`, raises the cycle error naming `k`
and leaves the state untouched (in particular `compute` is not invoked a
second time for `k`). -/
theorem cycle_detection_reentrant {K V E : Type} [DecidableEq K]
    (c : K → Prog K V E) (n : Nat) (k : K) (s : MState K V)
    (h : findEntry s.d k = some none) :
    getItem c false (n + 1) k s = (Except.error (Err.cycleDetected k), s) :=
  getItem_fast_inprogress_noPc c n k s h

theorem cycle_detection_reentrant_witness :
    findEntry [((0 : Nat), (none : Option Nat))] 0 = some none ∧
    getItem (cConst 9) false 5 0 ⟨[(0, none)], [0]⟩ =
      (Except.error (Err.cycleDetected 0), ⟨[(0, none)], [0]⟩) :=
  ⟨rfl, cycle_detection_reentrant (cConst 9) 4 0 ⟨[(0, none)], [0]⟩ rfl⟩

/-- C4.  Cycle tolerance: a reentrant `__getitem__(k)` while `k` is in
progress, with `permit_cycles = true`, returns the `none` sentinel without
raising and leaves the state untouched (in particular `compute` is not
invoked a second time for `k`). -/
theorem cycle_tolerance_reentrant {K V E : Type} [DecidableEq K]
    (c : K → Prog K V E) (n : Nat) (k : K) (s : MState K V)
    (h : findEntry s.d k = some none) :
    getItem c true (n + 1) k s = (Except.ok none, s) :=
  getItem_fast_inprogress_pc c n k s h

theorem cycle_tolerance_reentrant_witness :
    findEntry [((0 : Nat), (none : Option Nat))] 0 = some none ∧
    getItem (cConst 9) true 5 0 ⟨[(0, none)], [0]⟩ =
      (Except.ok none, ⟨[(0, none)], [0]⟩) :=
  ⟨rfl, cycle_tolerance_reentrant (cConst 9) 4 0 ⟨[(0, none)], [0]⟩ rfl⟩

/-- C3.  Poisoned-key persistence: if running the compute rule for a fresh
key `k` raises, `__getitem__(k)` propagates the same error unchanged, `k`
is left marked in progress, it stays in progress through any further
sequence of lookups, and a subsequent `__getitem__(k)` with
`permit_cycles = false` raises `CycleDetected` (so `compute` is never
retried for `k`). -/
theorem compute_failure_poisons_key {K V E : Type} [DecidableEq K]
    (c : K → Prog K V E) (pc : Bool) (n m fuel : Nat) (k : K) (s s₂ : MState K V)
    (e : Err K E)
    (h₁ : findEntry s.d k = none)
    (h₂ : exec c pc n (Sum.inr (c k)) ⟨setEntry s.d k none, s.log ++ [k]⟩ =
      (Except.error e, s₂)) :
    getItem c pc (n + 1) k s = (Except.error e, s₂) ∧
    findEntry s₂.d k = some none ∧
    (∀ ks : List K, findEntry ((lookupSeq c pc fuel ks s₂).2).d k = some none) ∧
    getItem c false (m + 1) k s₂ = (Except.error (Err.cycleDetected k), s₂) := by
  have hinv := exec_StepInv c pc n (Sum.inr (c k)) ⟨setEntry s.d k none, s.log ++ [k]⟩
  rw [h₂] at hinv
  have hpoison : findEntry s₂.d k = some none :=
    hinv.2.1 k (findEntry_setEntry_self s.d k none)
  refine ⟨by simp [getItem, exec, h₁, h₂], hpoison, ?_, ?_⟩
  · intro ks
    exact (lookupSeq_StepInv c pc fuel ks s₂).2.1 k hpoison
  · exact getItem_fast_inprogress_noPc c m k s₂ hpoison

theorem compute_failure_poisons_key_witness :
    findEntry ([] : List (Nat × Option Nat)) 0 = none ∧
    exec cThrowU false 1 (Sum.inr (cThrowU 0)) ⟨setEntry [] 0 none, [] ++ [0]⟩ =
      (Except.error (Err.computeError ()), ⟨[(0, none)], [0]⟩) ∧
    (getItem cThrowU false 2 0 ⟨[], []⟩ =
        (Except.error (Err.computeError ()), ⟨[(0, none)], [0]⟩) ∧
      findEntry [((0 : Nat), (none : Option Nat))] 0 = some none ∧
      (∀ ks : List Nat,
        findEntry ((lookupSeq cThrowU false 3 ks ⟨[(0, none)], [0]⟩).2).d 0 =
          some none) ∧
      getItem cThrowU false 1 0 ⟨[(0, none)], [0]⟩ =
        (Except.error (Err.cycleDetected 0), ⟨[(0, none)], [0]⟩)) :=
  ⟨rfl, rfl, compute_failure_poisons_key cThrowU false 1 0 3 0
    ⟨[], []⟩ ⟨[(0, none)], [0]⟩ (Err.computeError ()) rfl rfl⟩

/-- C5.  Per-key state machine: across any sequence of `__getitem__` calls,
a resolved entry keeps its exact value (never overwritten, never back to in
progress), an in-progress entry stays in progress, a key with an entry is
never handed to `compute` again, and each key gains at most one `compute`
invocation per call sequence starting from its current state. -/
theorem per_key_state_machine {K V E : Type} [DecidableEq K] (c : K → Prog K V E)
    (pc : Bool) (fuel : Nat) (ks : List K) (s : MState K V) :
    (∀ j v, findEntry s.d j = some (some v) →
      findEntry ((lookupSeq c pc fuel ks s).2).d j = some (some v)) ∧
    (∀ j, findEntry s.d j = some none →
      findEntry ((lookupSeq c pc fuel ks s).2).d j = some none) ∧
    (∀ j x, findEntry s.d j = some x →
      countKey j ((lookupSeq c pc fuel ks s).2).log = countKey j s.log) ∧
    (∀ j, countKey j ((lookupSeq c pc fuel ks s).2).log ≤ countKey j s.log + 1) :=
  have h := lookupSeq_StepInv c pc fuel ks s
  ⟨h.1, h.2.1, h.2.2.1, h.2.2.2.1⟩

theorem per_key_state_machine_witness :
    findEntry [((0 : Nat), some (5 : Nat))] 0 = some (some 5) ∧
    findEntry ((lookupSeq (cConst 9) false 2 [1, 0, 1] ⟨[(0, some 5)], [0]⟩).2).d 0 =
      some (some 5) :=
  ⟨rfl, (per_key_state_machine (cConst 9) false 2 [1, 0, 1] ⟨[(0, some 5)], [0]⟩).1 0 5 rfl⟩

/-- A successful interpreter run of a contract-abiding compute setup leaves
no new in-progress markers behind and, for a program, returns a genuine
value: any surviving marker was already there, and a `__getitem__` of a key
not currently in progress returns `some v`. -/
theorem exec_genuine {K V E : Type} [DecidableEq K] (c : K → Prog K V E) (pc : Bool)
    (hgen : ∀ k, GenuineProg (c k)) :
    ∀ (n : Nat) (s : MState K V),
    (∀ (k : K) (r : Option V) (s' : MState K V),
      exec c pc n (Sum.inl k) s = (Except.ok r, s') →
      (∀ j, findEntry s'.d j = some none → findEntry s.d j = some none) ∧
      (findEntry s.d k ≠ some none → ∃ v, r = some v)) ∧
    (∀ (p : Prog K V E) (r : Option V) (s' : MState K V),
      GenuineProg p → exec c pc n (Sum.inr p) s = (Except.ok r, s') →
      (∀ j, findEntry s'.d j = some none → findEntry s.d j = some none) ∧
      (∃ v, r = some v)) := by
  intro n
  induction n with
  | zero =>
    intro s
    constructor
    · intro k r s' h; simp [exec] at h
    · intro p r s' _ h; simp [exec] at h
  | succ n ih =>
    intro s
    constructor
    · intro k r s' h
      cases hfind : findEntry s.d k with
      | some x =>
        cases x with
        | some v =>
          simp [exec, hfind] at h
          obtain ⟨hr, hs⟩ := h
          subst hs
          exact ⟨fun j hj => hj, fun _ => ⟨v, hr.symm⟩⟩
        | none =>
          cases pc with
          | false => simp [exec, hfind] at h
          | true =>
            simp [exec, hfind] at h
            obtain ⟨hr, hs⟩ := h
            subst hs
            exact ⟨fun j hj => hj, fun hne => (hne (by simp [hfind])).elim⟩
      | none =>
        rcases hrec : exec c pc n (Sum.inr (c k)) ⟨setEntry s.d k none, s.log ++ [k]⟩
          with ⟨rr, s2⟩
        cases rr with
        | error e => simp [exec, hfind, hrec] at h
        | ok ret =>
          simp [exec, hfind, hrec] at h
          obtain ⟨hr, hs⟩ := h
          obtain ⟨hmp, v, hv⟩ := (ih ⟨setEntry s.d k none, s.log ++ [k]⟩).2
            (c k) ret s2 (hgen k) hrec
          subst hv
          refine ⟨?_, fun _ => ⟨v, hr.symm⟩⟩
          intro j hj
          rw [← hs] at hj
          by_cases hjk : j = k
          · subst hjk
            rw [findEntry_setEntry_self] at hj
            exact Option.noConfusion (Option.some.inj hj)
          · rw [findEntry_setEntry_ne s2.d k j _ hjk] at hj
            have := hmp j hj
            rwa [findEntry_setEntry_ne s.d k j none hjk] at this
    · intro p r s' hgp h
      cases hgp with
      | ret v =>
        simp [exec] at h
        obtain ⟨hr, hs⟩ := h
        subst hs
        exact ⟨fun j hj => hj, v, hr.symm⟩
      | throw e => simp [exec] at h
      | lookupK k cont hcont =>
        rcases h1 : exec c pc n (Sum.inl k) s with ⟨r1, s1⟩
        cases r1 with
        | error e => simp [exec, h1] at h
        | ok r1 =>
          simp only [exec, h1] at h
          obtain ⟨hmp1, _⟩ := (ih s).1 k r1 s1 h1
          obtain ⟨hmp2, hv⟩ := (ih s1).2 (cont r1) r s' (hcont r1) h
          exact ⟨fun j hj => hmp1 j (hmp2 j hj), hv⟩

/-- A successful sequence of `__getitem__` calls with a contract-abiding
compute rule, starting from a state with no in-progress markers, ends with
no in-progress markers and returns only genuine values. -/
theorem lookupSeq_genuine {K V E : Type} [DecidableEq K] (c : K → Prog K V E)
    (pc : Bool) (fuel : Nat) (hgen : ∀ k, GenuineProg (c k)) :
    ∀ (ks : List K) (s : MState K V) (rs : List (Option V)) (s' : MState K V),
    (∀ j, findEntry s.d j ≠ some none) →
    lookupSeq c pc fuel ks s = (Except.ok rs, s') →
    (∀ j, findEntry s'.d j ≠ some none) ∧
    (∀ r, r ∈ rs → ∃ v, r = some v) := by
  intro ks
  induction ks with
  | nil =>
    intro s rs s' hnm h
    simp [lookupSeq] at h
    obtain ⟨h1, h2⟩ := h
    subst h1
    subst h2
    exact ⟨hnm, fun r hr => absurd hr (List.not_mem_nil r)⟩
  | cons k ks ih =>
    intro s rs s' hnm h
    rcases h1 : getItem c pc fuel k s with ⟨r, s₁⟩
    cases r with
    | error e => simp [lookupSeq, h1] at h
    | ok r =>
      rcases h2 : lookupSeq c pc fuel ks s₁ with ⟨rs', s₂⟩
      cases rs' with
      | error e => simp [lookupSeq, h1, h2] at h
      | ok rs' =>
        simp [lookupSeq, h1, h2] at h
        obtain ⟨hrs, hs⟩ := h
        subst hs
        subst hrs
        obtain ⟨hmp, hval⟩ := (exec_genuine c pc hgen fuel s).1 k r s₁ h1
        have hnm1 : ∀ j, findEntry s₁.d j ≠ some none :=
          fun j hj => hnm j (hmp j hj)
        obtain ⟨hnm', hvals⟩ := ih s₁ rs' s₂ hnm1 h2
        refine ⟨hnm', ?_⟩
        intro r0 hr0
        rcases List.mem_cons.mp hr0 with hr0 | hr0
        · subst hr0
          exact hval (hnm k)
        · exact hvals r0 hr0

/-- C6.  Eager population: `__init__` with a key iterable is exactly a
`__getitem__` for each key in sequence order starting from the empty dict;
when it succeeds under a compute rule that honors the docstring's
"never return None" contract, every listed key ends with a resolved entry
holding exactly the genuine value its lookup returned, and every key whose
`compute` was invoked along the way — i.e. every transitive dependency —
ends with a resolved entry too, with no further lookups required. -/
theorem eager_population {K V E : Type} [DecidableEq K] (c : K → Prog K V E)
    (pc : Bool) (fuel : Nat) (ks : List K) (rs : List (Option V)) (s' : MState K V)
    (hgen : ∀ k, GenuineProg (c k))
    (h : initMemoize c pc fuel ks = (Except.ok rs, s')) :
    initMemoize c pc fuel ks = lookupSeq c pc fuel ks ⟨[], []⟩ ∧
    rs.length = ks.length ∧
    (∀ (i : Nat) (hi : i < ks.length) (hi' : i < rs.length),
      ∃ v, rs.get ⟨i, hi'⟩ = some v ∧
        findEntry s'.d (ks.get ⟨i, hi⟩) = some (some v)) ∧
    (∀ j, j ∈ s'.log → ∃ v, findEntry s'.d j = some (some v)) := by
  have h' : lookupSeq c pc fuel ks ⟨[], []⟩ = (Except.ok rs, s') := h
  obtain ⟨hlen, hres⟩ := lookupSeq_resolves c pc fuel ks ⟨[], []⟩ rs s' h'
  have hnm0 : ∀ j : K, findEntry ((⟨[], []⟩ : MState K V)).d j ≠ some none := by
    intro j hj
    simp [findEntry] at hj
  obtain ⟨hnm', hvals⟩ := lookupSeq_genuine c pc fuel hgen ks ⟨[], []⟩ rs s' hnm0 h'
  refine ⟨Eq.refl _, hlen, ?_, ?_⟩
  · intro i hi hi'
    obtain ⟨v, hv⟩ := hvals (rs.get ⟨i, hi'⟩) (List.get_mem rs i hi')
    exact ⟨v, hv, by rw [hres i hi hi', hv]⟩
  · intro j hj
    have hinv := lookupSeq_StepInv c pc fuel ks (⟨[], []⟩ : MState K V)
    rw [h'] at hinv
    have hcount : countKey j ((⟨[], []⟩ : MState K V)).log < countKey j s'.log := by
      have := countKey_pos_of_mem hj
      simpa [countKey] using this
    obtain ⟨x, hx⟩ := hinv.2.2.2.2 j hcount
    cases x with
    | none => exact absurd hx (hnm' j)
    | some v => exact ⟨v, hx⟩

theorem eager_population_witness :
    (∀ k : Nat, GenuineProg (cConst 5 k)) ∧
    initMemoize (cConst 5) false 2 [10, 20, 30] =
      (Except.ok [some 5, some 5, some 5],
       ⟨[(10, some 5), (20, some 5), (30, some 5)], [10, 20, 30]⟩) ∧
    (∃ v, (([some 5, some 5, some 5] : List (Option Nat)).get ⟨1, by decide⟩) = some v ∧
      findEntry [((10 : Nat), some (5 : Nat)), (20, some 5), (30, some 5)] 20 =
        some (some v)) :=
  ⟨fun _ => GenuineProg.ret 5, rfl, by
    have h := eager_population (cConst 5) false 2 [10, 20, 30] [some 5, some 5, some 5]
      ⟨[(10, some 5), (20, some 5), (30, some 5)], [10, 20, 30]⟩
      (fun _ => GenuineProg.ret 5) rfl
    exact h.2.2.1 1 (by decide) (by decide)⟩

/-- C7.  Factorial example: with
`compute(n) = 1 if n == 0 else n * self[n - 1]`, `__getitem__(4)` returns
`24`, and afterwards the dict holds resolved entries for exactly the keys
`0..4` with values `1, 1, 2, 6, 24`, each key's computation having been
invoked exactly once. -/
theorem factorial_example :
    getItem computeFact false 11 4 ⟨[], []⟩ =
      (Except.ok (some 24),
       ⟨[(4, some 24), (3, some 6), (2, some 2), (1, some 1), (0, some 1)],
        [4, 3, 2, 1, 0]⟩) ∧
    ((getItem computeFact false 11 4 ⟨[], []⟩).2).d.length = 5 ∧
    findEntry ((getItem computeFact false 11 4 ⟨[], []⟩).2).d 0 = some (some 1) ∧
    findEntry ((getItem computeFact false 11 4 ⟨[], []⟩).2).d 1 = some (some 1) ∧
    findEntry ((getItem computeFact false 11 4 ⟨[], []⟩).2).d 2 = some (some 2) ∧
    findEntry ((getItem computeFact false 11 4 ⟨[], []⟩).2).d 3 = some (some 6) ∧
    findEntry ((getItem computeFact false 11 4 ⟨[], []⟩).2).d 4 = some (some 24) ∧
    countKey 0 ((getItem computeFact false 11 4 ⟨[], []⟩).2).log = 1 ∧
    countKey 1 ((getItem computeFact false 11 4 ⟨[], []⟩).2).log = 1 ∧
    countKey 2 ((getItem computeFact false 11 4 ⟨[], []⟩).2).log = 1 ∧
    countKey 3 ((getItem computeFact false 11 4 ⟨[], []⟩).2).log = 1 ∧
    countKey 4 ((getItem computeFact false 11 4 ⟨[], []⟩).2).log = 1 :=
  ⟨rfl, rfl, rfl, rfl, rfl, rfl, rfl, rfl, rfl, rfl, rfl, rfl⟩

/-- C8, as stated, is false: under `permit_cycles = false`, after `compute`
returns the `None` sentinel as its genuine result for key `0`, the next
`__getitem__(0)` raises the cycle error instead of returning the
sentinel. -/
theorem sentinel_misuse_next_lookup_raises :
    getItem cSentinel false 5 0 ⟨[], []⟩ = (Except.ok none, ⟨[(0, none)], [0]⟩) ∧
    getItem cSentinel false 5 0 ⟨[(0, none)], [0]⟩ =
      (Except.error (Err.cycleDetected 0), ⟨[(0, none)], [0]⟩) :=
  ⟨rfl, rfl⟩

/-- C8 (amended).  Sentinel misuse is silent at the point of misuse: if
`compute` returns the sentinel for a fresh key `k`, `__getitem__(k)`
returns the sentinel without raising and stores an entry indistinguishable
from "still computing"; a subsequent `__getitem__(k)` returns the sentinel
when `permit_cycles` is true and raises `CycleDetected` when it is
false. -/
theorem sentinel_misuse_silent {K V E : Type} [DecidableEq K]
    (c : K → Prog K V E) (pc : Bool) (n m : Nat) (k : K) (s s₂ : MState K V)
    (h₁ : findEntry s.d k = none)
    (h₂ : exec c pc n (Sum.inr (c k)) ⟨setEntry s.d k none, s.log ++ [k]⟩ =
      (Except.ok none, s₂)) :
    getItem c pc (n + 1) k s = (Except.ok none, ⟨setEntry s₂.d k none, s₂.log⟩) ∧
    findEntry (setEntry s₂.d k none) k = some none ∧
    getItem c true (m + 1) k ⟨setEntry s₂.d k none, s₂.log⟩ =
      (Except.ok none, ⟨setEntry s₂.d k none, s₂.log⟩) ∧
    getItem c false (m + 1) k ⟨setEntry s₂.d k none, s₂.log⟩ =
      (Except.error (Err.cycleDetected k), ⟨setEntry s₂.d k none, s₂.log⟩) := by
  have hks : findEntry (setEntry s₂.d k none) k = some none :=
    findEntry_setEntry_self s₂.d k none
  exact ⟨by simp [getItem, exec, h₁, h₂], hks,
    getItem_fast_inprogress_pc c m k ⟨setEntry s₂.d k none, s₂.log⟩ hks,
    getItem_fast_inprogress_noPc c m k ⟨setEntry s₂.d k none, s₂.log⟩ hks⟩

theorem sentinel_misuse_silent_witness :
    findEntry ([] : List (Nat × Option Nat)) 0 = none ∧
    exec cSentinel false 1 (Sum.inr (cSentinel 0)) ⟨setEntry [] 0 none, [] ++ [0]⟩ =
      (Except.ok none, ⟨[(0, none)], [0]⟩) ∧
    (getItem cSentinel false 2 0 ⟨[], []⟩ =
        (Except.ok none, ⟨setEntry [(0, none)] 0 none, [0]⟩) ∧
      findEntry (setEntry [((0 : Nat), (none : Option Nat))] 0 none) 0 = some none ∧
      getItem cSentinel true 1 0 ⟨setEntry [(0, none)] 0 none, [0]⟩ =
        (Except.ok none, ⟨setEntry [(0, none)] 0 none, [0]⟩) ∧
      getItem cSentinel false 1 0 ⟨setEntry [(0, none)] 0 none, [0]⟩ =
        (Except.error (Err.cycleDetected 0), ⟨setEntry [(0, none)] 0 none, [0]⟩)) :=
  ⟨rfl, rfl, sentinel_misuse_silent cSentinel false 1 0 0 ⟨[], []⟩
    ⟨[(0, none)], [0]⟩ rfl rfl⟩

/-- C9.  `get_dict` is pure introspection: it returns (a reference to) the
store's current contents, leaves the whole state — heap, entries, and
invocation log — unchanged, and repeated calls return the same reference
and hence equal contents. -/
theorem snapshot_idempotent_pure {K V : Type} (m : MemoObj) (hs : HeapState K V) :
    (get_dict m hs).2 = hs ∧
    (get_dict m ((get_dict m hs).2)).1 = (get_dict m hs).1 ∧
    ((get_dict m hs).2).heap ((get_dict m hs).1) = hs.heap m.dRef ∧
    ((get_dict m hs).2).log = hs.log :=
  ⟨rfl, rfl, rfl, rfl⟩

/-- C10.  `get_dict` returns the store's actual dict object: the same
address before and after any `__getitem__` call, and dereferencing the
address obtained *before* the call yields the *post*-call contents — the
mutation is observable through the earlier reference, which a copy could
not provide. -/
theorem get_dict_aliases_live_state {K V E : Type} [DecidableEq K]
    (c : K → Prog K V E) (fuel : Nat) (m : MemoObj) (k : K) (hs : HeapState K V) :
    (get_dict m hs).1 = m.dRef ∧
    (get_dict m ((getItemH c fuel m k hs).2)).1 = m.dRef ∧
    ((getItemH c fuel m k hs).2).heap ((get_dict m hs).1) =
      ((getItem c m.permit_cycles fuel k ⟨hs.heap m.dRef, hs.log⟩).2).d := by
  refine ⟨rfl, rfl, ?_⟩
  rcases hrun : getItem c m.permit_cycles fuel k ⟨hs.heap m.dRef, hs.log⟩ with ⟨r0, s'⟩
  simp [getItemH, get_dict, hrun]

